import Mathlib

/-!
Shallow embedding of the phf_mut crate (src/lib.rs and src/tests.rs):
perfectly hashed mutable Map and Set containers over a caller-supplied
perfect-hash adapter, together with their iterators.

Modelling conventions:
- Rust usize is modelled as Nat.
- A Rust panic (slice indexing out of bounds, Option::unwrap on None,
  assert! failure, assert_eq! failure, explicit panic!) is modelled by
  returning Option.none from the embedded operation.
- The backing Box of a Map and the BitVec of a Set are modelled as List V
  and List Bool respectively; slice indexing uses List.getElem? so that the
  out-of-bounds panic is visible as none.
- Iterators are modelled as explicit state records with a step function
  returning the yielded item (if any) and the successor state, mirroring
  Iterator::next on a mutable receiver.
-/

namespace Phf

/-- Trait PerfectHash of src/lib.rs: forward hash into the dense index range
plus the domain size. -/
class PerfectHash (H : Type) (K : outParam Type) where
  hash : H → K → Nat
  size : H → Nat

/-- Trait HashInverse of src/lib.rs: inverse operation of the perfect hash. -/
class HashInverse (H : Type) (K : outParam Type) extends PerfectHash H K where
  invert : H → Nat → K

/-- Short form of the forward hash of an adapter. -/
abbrev phash {H K : Type} [PerfectHash H K] (h : H) (k : K) : Nat :=
  PerfectHash.hash h k

/-- Short form of the domain size of an adapter. -/
abbrev psize {H K : Type} [PerfectHash H K] (h : H) : Nat :=
  @PerfectHash.size H K _ h

/-- Short form of the inverse hash of an adapter. -/
abbrev pinvert {H K : Type} [HashInverse H K] (h : H) (i : Nat) : K :=
  HashInverse.invert h i

/-- Struct KeyIter of src/lib.rs: iterator over the domain of a PerfectHash,
holding the borrowed adapter and the cursor field named next. -/
structure KeyIter (H : Type) where
  hash : H
  next : Nat
deriving DecidableEq

/-- Default method HashInverse::iter: a fresh domain iterator with cursor 0. -/
def HashInverse.iter {H K : Type} [HashInverse H K] (h : H) : KeyIter H :=
  { hash := h, next := 0 }

/-- KeyIter::next: when the cursor equals size, reset the cursor to 0 and
return None; otherwise yield invert of the cursor and advance it. -/
def KeyIter.step {H K : Type} [HashInverse H K] (it : KeyIter H) :
    Option K × KeyIter H :=
  if it.next = psize (K := K) it.hash then (none, { it with next := 0 })
  else (some (pinvert it.hash it.next), { it with next := it.next + 1 })

/-- Run a KeyIter until its first None, with fuel bounding the number of
steps; returns the yielded items and the state after the None. -/
def KeyIter.collect {H K : Type} [HashInverse H K] :
    Nat → KeyIter H → List K × KeyIter H
  | 0, it => ([], it)
  | fuel + 1, it =>
    match KeyIter.step it with
    | (none, it2) => ([], it2)
    | (some k, it2) =>
      let r := KeyIter.collect fuel it2
      (k :: r.1, r.2)

/-- Struct Map of src/lib.rs: the owned adapter plus the boxed backing slice,
one value per index. -/
structure Map (V H : Type) where
  hash : H
  backing : List V
deriving DecidableEq

namespace Map

/-- Map::new: size() default-valued slots. -/
def new {V H K : Type} [Inhabited V] [PerfectHash H K] (h : H) : Map V H :=
  { hash := h, backing := List.replicate (psize h) default }

/-- Map::from_element: size() clones of the given value. -/
def from_element {V H K : Type} [PerfectHash H K] (h : H) (value : V) : Map V H :=
  { hash := h, backing := List.replicate (psize h) value }

/-- Map::from_initial: takes the given vector as backing; the assert_eq! on
the lengths is modelled as none on mismatch. -/
def from_initial {V H K : Type} [PerfectHash H K] (h : H) (init : List V) :
    Option (Map V H) :=
  if psize h = init.length then some { hash := h, backing := init } else none

/-- Map::insert: overwrite the slot at hash(k); none models the slice
indexing panic when the index is out of bounds. -/
def insert {V H K : Type} [PerfectHash H K] (m : Map V H) (k : K) (v : V) :
    Option (Map V H) :=
  if phash m.hash k < m.backing.length then
    some { m with backing := m.backing.set (phash m.hash k) v }
  else none

/-- Map::swap: exchange the slot at hash(k) with the caller-held value; the
result carries the updated map and the value the caller now holds. -/
def swap {V H K : Type} [PerfectHash H K] (m : Map V H) (k : K) (v : V) :
    Option (Map V H × V) :=
  match m.backing[phash m.hash k]? with
  | some old => some ({ m with backing := m.backing.set (phash m.hash k) v }, old)
  | none => none

/-- Map::get: read the slot at hash(k); none models the indexing panic. -/
def get {V H K : Type} [PerfectHash H K] (m : Map V H) (k : K) : Option V :=
  m.backing[phash m.hash k]?

/-- Map::get_mut: obtain the slot at hash(k) for mutation; the readable value
behind the reference is returned, none models the indexing panic. -/
def get_mut {V H K : Type} [PerfectHash H K] (m : Map V H) (k : K) : Option V :=
  m.backing[phash m.hash k]?

/-- The Index impl for Map, which delegates to get. -/
def index {V H K : Type} [PerfectHash H K] (m : Map V H) (k : K) : Option V :=
  m.get k

/-- The IndexMut impl for Map, which delegates to get_mut. -/
def index_mut {V H K : Type} [PerfectHash H K] (m : Map V H) (k : K) : Option V :=
  m.get_mut k

/-- Writing a value through the mutable reference produced by get_mut or
index_mut: the reference is obtained (which can panic) and then the slot it
points to is overwritten. -/
def write_at {V H K : Type} [PerfectHash H K] (m : Map V H) (k : K) (v : V) :
    Option (Map V H) :=
  (m.get_mut k).map (fun _ => { m with backing := m.backing.set (phash m.hash k) v })

/-- Map::is_empty: whether the backing slice is empty. -/
def is_empty {V H : Type} (m : Map V H) : Bool :=
  m.backing.isEmpty

/-- Map::len: the backing slice length. -/
def len {V H : Type} (m : Map V H) : Nat :=
  m.backing.length

/-- Map::values: the slot contents in index order. -/
def values {V H : Type} (m : Map V H) : List V :=
  m.backing

/-- Overwriting every slot in place through the references yielded by
values_mut or iter_mut, modelled as mapping a function over the backing. -/
def map_values {V H : Type} (m : Map V H) (f : V → V) : Map V H :=
  { m with backing := m.backing.map f }

end Map

/-- Struct MapIter of src/lib.rs: the borrowed rest of the backing slice, the
borrowed adapter, and the position counter. -/
structure MapIter (V H : Type) where
  backing : List V
  hash : H
  pos : Nat
deriving DecidableEq

/-- Map::iter: a fresh entry iterator starting at position 0 over the whole
backing slice. -/
def Map.iter {V H : Type} (m : Map V H) : MapIter V H :=
  { backing := m.backing, hash := m.hash, pos := 0 }

/-- MapIter::next: take the next value from the slice iterator, pair it with
invert of the current position, and advance the position. -/
def MapIter.step {V H K : Type} [HashInverse H K] (it : MapIter V H) :
    Option (K × V) × MapIter V H :=
  match it.backing with
  | [] => (none, it)
  | v :: rest =>
    (some (pinvert it.hash it.pos, v), { it with backing := rest, pos := it.pos + 1 })

/-- Run a MapIter for at most fuel steps, stopping at the first None. -/
def MapIter.collect {V H K : Type} [HashInverse H K] :
    Nat → MapIter V H → List (K × V) × MapIter V H
  | 0, it => ([], it)
  | fuel + 1, it =>
    match MapIter.step it with
    | (none, it2) => ([], it2)
    | (some kv, it2) =>
      let r := MapIter.collect fuel it2
      (kv :: r.1, r.2)

/-- Struct MapIterMut of src/lib.rs: same shape as MapIter, yielding mutable
references; the readable values behind the references are modelled. -/
structure MapIterMut (V H : Type) where
  backing : List V
  hash : H
  pos : Nat
deriving DecidableEq

/-- Map::iter_mut: a fresh mutable entry iterator at position 0. -/
def Map.iter_mut {V H : Type} (m : Map V H) : MapIterMut V H :=
  { backing := m.backing, hash := m.hash, pos := 0 }

/-- MapIterMut::next: same stepping as MapIter::next. -/
def MapIterMut.step {V H K : Type} [HashInverse H K] (it : MapIterMut V H) :
    Option (K × V) × MapIterMut V H :=
  match it.backing with
  | [] => (none, it)
  | v :: rest =>
    (some (pinvert it.hash it.pos, v), { it with backing := rest, pos := it.pos + 1 })

/-- Run a MapIterMut for at most fuel steps, stopping at the first None. -/
def MapIterMut.collect {V H K : Type} [HashInverse H K] :
    Nat → MapIterMut V H → List (K × V) × MapIterMut V H
  | 0, it => ([], it)
  | fuel + 1, it =>
    match MapIterMut.step it with
    | (none, it2) => ([], it2)
    | (some kv, it2) =>
      let r := MapIterMut.collect fuel it2
      (kv :: r.1, r.2)

/-- Struct Set of src/lib.rs: the owned adapter plus the backing bit vector,
one bit per index. -/
structure Set (H : Type) where
  hash : H
  backing : List Bool
deriving DecidableEq

namespace Set

/-- Set::new: size() cleared bits. -/
def new {H K : Type} [PerfectHash H K] (h : H) : Set H :=
  { hash := h, backing := List.replicate (psize h) false }

/-- Set::insert: read the bit at hash(k) (none models the unwrap panic when
the index is out of bounds), set it to true, and return the previous bit. -/
def insert {H K : Type} [PerfectHash H K] (s : Set H) (k : K) :
    Option (Bool × Set H) :=
  match s.backing[phash s.hash k]? with
  | some ret => some (ret, { s with backing := s.backing.set (phash s.hash k) true })
  | none => none

/-- Set::erase: read the bit at hash(k) (none models the unwrap panic), clear
it, and return the previous bit. -/
def erase {H K : Type} [PerfectHash H K] (s : Set H) (k : K) :
    Option (Bool × Set H) :=
  match s.backing[phash s.hash k]? with
  | some ret => some (ret, { s with backing := s.backing.set (phash s.hash k) false })
  | none => none

/-- Set::has: read the bit at a raw index; none models the unwrap panic. -/
def has {H : Type} (s : Set H) (index : Nat) : Option Bool :=
  s.backing[index]?

/-- Set::contains: the bit at hash(k). -/
def contains {H K : Type} [PerfectHash H K] (s : Set H) (k : K) : Option Bool :=
  s.has (phash s.hash k)

/-- Set::is_empty: no bit is set. -/
def is_empty {H : Type} (s : Set H) : Bool :=
  !(s.backing.any id)

/-- Set::is_full: every bit is set. -/
def is_full {H : Type} (s : Set H) : Bool :=
  s.backing.all id

end Set

/-- Struct SetIter of src/lib.rs: the cursor field named next and the
borrowed set. -/
structure SetIter (H : Type) where
  next : Nat
  set : Set H
deriving DecidableEq

/-- Set::iter: a fresh set iterator whose cursor starts at the backing
length. -/
def Set.iter {H : Type} (s : Set H) : SetIter H :=
  { next := s.backing.length, set := s }

/-- The while loop inside SetIter::next: advance the cursor past cleared bits
while it is below size; none models the unwrap panic inside Set::has when the
cursor is below size but outside the backing. -/
def SetIter.skip {H : Type} (s : Set H) (sz : Nat) (n : Nat) : Option Nat :=
  if _h : n < sz then
    match s.backing[n]? with
    | none => none
    | some true => some n
    | some false => SetIter.skip s sz (n + 1)
  else some n
termination_by sz - n

/-- SetIter::next: reset the cursor to 0 when it equals size, otherwise
advance it by one; then skip cleared bits; finally yield invert of the cursor
unless it reached size. The outer none models a panic inside the loop. -/
def SetIter.step {H K : Type} [HashInverse H K] (it : SetIter H) :
    Option (Option K × SetIter H) :=
  match SetIter.skip it.set (psize (K := K) it.set.hash)
      (if it.next = psize (K := K) it.set.hash then 0 else it.next + 1) with
  | none => none
  | some n2 =>
    if n2 = psize (K := K) it.set.hash then some (none, { it with next := n2 })
    else some (some (pinvert it.set.hash n2), { it with next := n2 })

/-- Run a SetIter until its first None, with fuel bounding the number of
yielded items; none when fuel runs out or a step panics. -/
def SetIter.collect {H K : Type} [HashInverse H K] :
    Nat → SetIter H → Option (List K × SetIter H)
  | 0, _ => none
  | fuel + 1, it =>
    match SetIter.step it with
    | none => none
    | some (none, it2) => some ([], it2)
    | some (some k, it2) =>
      match SetIter.collect fuel it2 with
      | none => none
      | some (l, e) => some (k :: l, e)

/-- Struct Pairs of src/tests.rs: the unordered-pair example adapter with
bound n. -/
structure Pairs where
  n : Nat
deriving DecidableEq

/-- Pairs::sort: order the two components of a pair ascendingly. -/
def Pairs.sort : Nat × Nat → Nat × Nat
  | (u, v) => if u > v then (v, u) else (u, v)

/-- Pairs::size_when: the triangular number (n + 1) * n / 2. -/
def Pairs.size_when (n : Nat) : Nat :=
  (n + 1) * n / 2

/-- The impl of PerfectHash for Pairs in src/tests.rs. -/
instance instPerfectHashPairs : PerfectHash Pairs (Nat × Nat) where
  hash _p k :=
    let s := Pairs.sort k
    s.1 + Pairs.size_when s.2
  size p := Pairs.size_when p.n

/-- The for loop inside Pairs::invert, counting sub upward so that use_b
counts down from n - 1 to 0; the second Nat argument is the number of loop
iterations still to run (initially n, always n - sub), which makes the
recursion structural; none models the assert! on use_a as well as the
panic! after the loop. -/
def Pairs.invertLoop (p : Pairs) (index : Nat) : Nat → Nat → Option (Nat × Nat)
  | _sub, 0 => none
  | sub, remaining + 1 =>
    let use_b := p.n - 1 - sub
    let offset := Pairs.size_when use_b
    if offset ≤ index then
      let use_a := index - offset
      if use_a ≤ use_b then some (use_a, use_b) else none
    else Pairs.invertLoop p index (sub + 1) remaining

/-- Pairs::invert of src/tests.rs; the leading assert! that the index is
below size is modelled by the guard. -/
def Pairs.invert (p : Pairs) (index : Nat) : Option (Nat × Nat) :=
  if index < psize p then Pairs.invertLoop p index 0 p.n else none

/-- The impl of HashInverse for Pairs.  The Option-valued Pairs.invert models
the panics, which cannot fire for indices below size; the trait method is
total in its signature, so the instance totalizes with a dummy value that
in-range uses never observe. -/
instance instHashInversePairs : HashInverse Pairs (Nat × Nat) :=
  { instPerfectHashPairs with invert := fun p i => (Pairs.invert p i).getD (0, 0) }

/-- One mutating Map operation, used to state that no operation sequence
changes the backing length: insert, swap (the received value discarded), a
write through the reference of get_mut or index_mut, and an in-place rewrite
of every slot through values_mut or iter_mut. -/
inductive MapOp (K V : Type) where
  | ins (k : K) (v : V)
  | swp (k : K) (v : V)
  | wr (k : K) (v : V)
  | mapv (f : V → V)

/-- Apply one MapOp to a map; none models the panic of the operation. -/
def Map.applyOp {V H K : Type} [PerfectHash H K] (m : Map V H) :
    MapOp K V → Option (Map V H)
  | MapOp.ins k v => m.insert k v
  | MapOp.swp k v => (m.swap k v).map Prod.fst
  | MapOp.wr k v => m.write_at k v
  | MapOp.mapv f => some (m.map_values f)

/-- Apply a sequence of MapOps left to right, stopping at the first panic. -/
def Map.applyOps {V H K : Type} [PerfectHash H K] (m : Map V H) :
    List (MapOp K V) → Option (Map V H)
  | [] => some m
  | op :: rest => (m.applyOp op).bind (fun m2 => m2.applyOps rest)

/-- The entry list an entry iterator yields from position p over the rest of
a backing slice. -/
def mapEntriesFrom {V H K : Type} [HashInverse H K] (h : H) :
    Nat → List V → List (K × V)
  | _, [] => []
  | p, v :: rest => (pinvert h p, v) :: mapEntriesFrom h (p + 1) rest

/-- The keys of the set bits of a Set with indices in the range from n up to
sz, ascending, each sent through invert. -/
def setKeysFrom {H K : Type} [HashInverse H K] (s : Set H) (sz : Nat) (n : Nat) :
    List K :=
  if _h : n < sz then
    (if s.backing.getD n false then [pinvert s.hash n] else []) ++
      setKeysFrom s sz (n + 1)
  else []
termination_by sz - n

/-! Theorems. -/

/-- Claim C1: for a key k with in-range hash, Map.insert k v succeeds, after
it get k returns v, and get k2 is unchanged for every key k2 hashing to a
different index. -/
theorem claim1_insert_overwrites_exactly_one_slot {V H K : Type} [PerfectHash H K]
    (m : Map V H) (k : K) (v : V)
    (wf : m.backing.length = psize m.hash) (hk : phash m.hash k < psize m.hash) :
    ∃ m2 : Map V H, m.insert k v = some m2 ∧ m2.get k = some v ∧
      ∀ k2 : K, phash m.hash k2 ≠ phash m.hash k → m2.get k2 = m.get k2 := by
  have hk' : phash m.hash k < m.backing.length := by omega
  refine ⟨{ m with backing := m.backing.set (phash m.hash k) v }, ?_, ?_, ?_⟩
  · simp [Map.insert, hk']
  · simp [Map.get, List.getElem?_set_self hk']
  · intro k2 hne
    simp [Map.get, List.getElem?_set_ne (Ne.symm hne)]

/-- Witness for claim C1 at the Pairs adapter with n = 2 and key (0, 1). -/
theorem claim1_witness :
    ((Map.mk (Pairs.mk 2) [10, 20, 30] : Map Nat Pairs).backing.length =
        psize (Map.mk (Pairs.mk 2) [10, 20, 30] : Map Nat Pairs).hash ∧
      phash (Map.mk (Pairs.mk 2) [10, 20, 30] : Map Nat Pairs).hash ((0, 1) : Nat × Nat) <
        psize (Map.mk (Pairs.mk 2) [10, 20, 30] : Map Nat Pairs).hash) ∧
    (∃ m2 : Map Nat Pairs,
      (Map.mk (Pairs.mk 2) [10, 20, 30]).insert ((0, 1) : Nat × Nat) 7 = some m2 ∧
      m2.get ((0, 1) : Nat × Nat) = some 7 ∧
      ∀ k2 : Nat × Nat,
        phash (Map.mk (Pairs.mk 2) [10, 20, 30] : Map Nat Pairs).hash k2 ≠
          phash (Map.mk (Pairs.mk 2) [10, 20, 30] : Map Nat Pairs).hash ((0, 1) : Nat × Nat) →
        m2.get k2 = (Map.mk (Pairs.mk 2) [10, 20, 30]).get k2) :=
  ⟨⟨by decide, by decide⟩,
    claim1_insert_overwrites_exactly_one_slot
      (Map.mk (Pairs.mk 2) [10, 20, 30]) ((0, 1) : Nat × Nat) 7 (by decide) (by decide)⟩

/-- Claim C2: with well-formed backing lengths, an adapter-returned index at
or beyond size makes every dependent Map operation (insert, swap, get,
get_mut, indexing) and Set operation (insert, erase, contains) fail as none,
and an index below size makes none of them fail. -/
theorem claim2_out_of_range_is_fatal {V H K : Type} [PerfectHash H K]
    (hsh : H) (bk : List V) (bs : List Bool) (k : K) (v : V)
    (wfm : bk.length = psize hsh) (wfs : bs.length = psize hsh) :
    (psize hsh ≤ phash hsh k →
      (Map.mk hsh bk).insert k v = none ∧
      (Map.mk hsh bk).swap k v = none ∧
      (Map.mk hsh bk).get k = none ∧
      (Map.mk hsh bk).get_mut k = none ∧
      (Map.mk hsh bk).index k = none ∧
      (Map.mk hsh bk).index_mut k = none ∧
      (Set.mk hsh bs).insert k = none ∧
      (Set.mk hsh bs).erase k = none ∧
      (Set.mk hsh bs).contains k = none) ∧
    (phash hsh k < psize hsh →
      ((Map.mk hsh bk).insert k v).isSome ∧
      ((Map.mk hsh bk).swap k v).isSome ∧
      ((Map.mk hsh bk).get k).isSome ∧
      ((Map.mk hsh bk).get_mut k).isSome ∧
      ((Map.mk hsh bk).index k).isSome ∧
      ((Map.mk hsh bk).index_mut k).isSome ∧
      ((Set.mk hsh bs).insert k).isSome ∧
      ((Set.mk hsh bs).erase k).isSome ∧
      ((Set.mk hsh bs).contains k).isSome) := by
  constructor
  · intro hge
    have hm : bk.length ≤ phash hsh k := by omega
    have hs : bs.length ≤ phash hsh k := by omega
    refine ⟨?_, ?_, ?_, ?_, ?_, ?_, ?_, ?_, ?_⟩ <;>
      simp [Map.insert, Map.swap, Map.get, Map.get_mut, Map.index, Map.index_mut,
        Set.insert, Set.erase, Set.contains, Set.has,
        List.getElem?_eq_none hm, List.getElem?_eq_none hs]
    all_goals omega
  · intro hlt
    have hm : phash hsh k < bk.length := by omega
    have hs : phash hsh k < bs.length := by omega
    refine ⟨?_, ?_, ?_, ?_, ?_, ?_, ?_, ?_, ?_⟩ <;>
      simp [Map.insert, Map.swap, Map.get, Map.get_mut, Map.index, Map.index_mut,
        Set.insert, Set.erase, Set.contains, Set.has,
        List.getElem?_eq_getElem hm, List.getElem?_eq_getElem hs, hm, hs]

/-- Witness for claim C2 at the Pairs adapter with n = 2 and key (1, 1). -/
theorem claim2_witness :
    (([true, false, true] : List Bool).length = psize (Pairs.mk 2) ∧
      ([5, 6, 7] : List Nat).length = psize (Pairs.mk 2)) ∧
    ((psize (Pairs.mk 2) ≤ phash (Pairs.mk 2) ((1, 1) : Nat × Nat) →
      (Map.mk (Pairs.mk 2) [5, 6, 7]).insert ((1, 1) : Nat × Nat) 9 = none ∧
      (Map.mk (Pairs.mk 2) [5, 6, 7]).swap ((1, 1) : Nat × Nat) 9 = none ∧
      (Map.mk (Pairs.mk 2) [5, 6, 7]).get ((1, 1) : Nat × Nat) = none ∧
      (Map.mk (Pairs.mk 2) [5, 6, 7]).get_mut ((1, 1) : Nat × Nat) = none ∧
      (Map.mk (Pairs.mk 2) [5, 6, 7]).index ((1, 1) : Nat × Nat) = none ∧
      (Map.mk (Pairs.mk 2) [5, 6, 7]).index_mut ((1, 1) : Nat × Nat) = none ∧
      (Set.mk (Pairs.mk 2) [true, false, true]).insert ((1, 1) : Nat × Nat) = none ∧
      (Set.mk (Pairs.mk 2) [true, false, true]).erase ((1, 1) : Nat × Nat) = none ∧
      (Set.mk (Pairs.mk 2) [true, false, true]).contains ((1, 1) : Nat × Nat) = none) ∧
    (phash (Pairs.mk 2) ((1, 1) : Nat × Nat) < psize (Pairs.mk 2) →
      ((Map.mk (Pairs.mk 2) [5, 6, 7]).insert ((1, 1) : Nat × Nat) 9).isSome ∧
      ((Map.mk (Pairs.mk 2) [5, 6, 7]).swap ((1, 1) : Nat × Nat) 9).isSome ∧
      ((Map.mk (Pairs.mk 2) [5, 6, 7]).get ((1, 1) : Nat × Nat)).isSome ∧
      ((Map.mk (Pairs.mk 2) [5, 6, 7]).get_mut ((1, 1) : Nat × Nat)).isSome ∧
      ((Map.mk (Pairs.mk 2) [5, 6, 7]).index ((1, 1) : Nat × Nat)).isSome ∧
      ((Map.mk (Pairs.mk 2) [5, 6, 7]).index_mut ((1, 1) : Nat × Nat)).isSome ∧
      ((Set.mk (Pairs.mk 2) [true, false, true]).insert ((1, 1) : Nat × Nat)).isSome ∧
      ((Set.mk (Pairs.mk 2) [true, false, true]).erase ((1, 1) : Nat × Nat)).isSome ∧
      ((Set.mk (Pairs.mk 2) [true, false, true]).contains ((1, 1) : Nat × Nat)).isSome)) :=
  ⟨⟨by decide, by decide⟩,
    claim2_out_of_range_is_fatal (Pairs.mk 2) [5, 6, 7] [true, false, true]
      ((1, 1) : Nat × Nat) 9 (by decide) (by decide)⟩

/-- Claim C3: Set.insert sets the bit at hash k and returns the membership
that held before; Set.erase clears it and returns the membership that held
before; afterwards contains reports the new bit for every key with the same
hash, and the bits at all other indices are unchanged. -/
theorem claim3_set_insert_erase {H K : Type} [PerfectHash H K]
    (s : Set H) (k : K)
    (wf : s.backing.length = psize s.hash) (hk : phash s.hash k < psize s.hash) :
    (∃ prev s2, s.insert k = some (prev, s2) ∧
      s.contains k = some prev ∧
      (∀ k2 : K, phash s.hash k2 = phash s.hash k → s2.contains k2 = some true) ∧
      (∀ j : Nat, j ≠ phash s.hash k → s2.backing[j]? = s.backing[j]?)) ∧
    (∃ prev s2, s.erase k = some (prev, s2) ∧
      s.contains k = some prev ∧
      (∀ k2 : K, phash s.hash k2 = phash s.hash k → s2.contains k2 = some false) ∧
      (∀ j : Nat, j ≠ phash s.hash k → s2.backing[j]? = s.backing[j]?)) := by
  have hk' : phash s.hash k < s.backing.length := by omega
  constructor
  · refine ⟨s.backing[phash s.hash k],
      { s with backing := s.backing.set (phash s.hash k) true }, ?_, ?_, ?_, ?_⟩
    · simp [Set.insert, List.getElem?_eq_getElem hk']
    · simp [Set.contains, Set.has, List.getElem?_eq_getElem hk']
    · intro k2 h2
      simp [Set.contains, Set.has, h2, List.getElem?_set_self hk']
    · intro j hj
      simp [List.getElem?_set_ne (Ne.symm hj)]
  · refine ⟨s.backing[phash s.hash k],
      { s with backing := s.backing.set (phash s.hash k) false }, ?_, ?_, ?_, ?_⟩
    · simp [Set.erase, List.getElem?_eq_getElem hk']
    · simp [Set.contains, Set.has, List.getElem?_eq_getElem hk']
    · intro k2 h2
      simp [Set.contains, Set.has, h2, List.getElem?_set_self hk']
    · intro j hj
      simp [List.getElem?_set_ne (Ne.symm hj)]

/-- Witness for claim C3 at the Pairs adapter with n = 2 and key (1, 0). -/
theorem claim3_witness :
    ((Set.mk (Pairs.mk 2) [true, false, true]).backing.length =
        psize (Set.mk (Pairs.mk 2) [true, false, true]).hash ∧
      phash (Set.mk (Pairs.mk 2) [true, false, true]).hash ((1, 0) : Nat × Nat) <
        psize (Set.mk (Pairs.mk 2) [true, false, true]).hash) ∧
    ((∃ prev s2, (Set.mk (Pairs.mk 2) [true, false, true]).insert ((1, 0) : Nat × Nat) =
        some (prev, s2) ∧
      (Set.mk (Pairs.mk 2) [true, false, true]).contains ((1, 0) : Nat × Nat) = some prev ∧
      (∀ k2 : Nat × Nat,
        phash (Set.mk (Pairs.mk 2) [true, false, true]).hash k2 =
          phash (Set.mk (Pairs.mk 2) [true, false, true]).hash ((1, 0) : Nat × Nat) →
        s2.contains k2 = some true) ∧
      (∀ j : Nat, j ≠ phash (Set.mk (Pairs.mk 2) [true, false, true]).hash ((1, 0) : Nat × Nat) →
        s2.backing[j]? = (Set.mk (Pairs.mk 2) [true, false, true]).backing[j]?)) ∧
    (∃ prev s2, (Set.mk (Pairs.mk 2) [true, false, true]).erase ((1, 0) : Nat × Nat) =
        some (prev, s2) ∧
      (Set.mk (Pairs.mk 2) [true, false, true]).contains ((1, 0) : Nat × Nat) = some prev ∧
      (∀ k2 : Nat × Nat,
        phash (Set.mk (Pairs.mk 2) [true, false, true]).hash k2 =
          phash (Set.mk (Pairs.mk 2) [true, false, true]).hash ((1, 0) : Nat × Nat) →
        s2.contains k2 = some false) ∧
      (∀ j : Nat, j ≠ phash (Set.mk (Pairs.mk 2) [true, false, true]).hash ((1, 0) : Nat × Nat) →
        s2.backing[j]? = (Set.mk (Pairs.mk 2) [true, false, true]).backing[j]?))) :=
  ⟨⟨by decide, by decide⟩,
    claim3_set_insert_erase (Set.mk (Pairs.mk 2) [true, false, true])
      ((1, 0) : Nat × Nat) (by decide) (by decide)⟩

/-- Claim C6: from_initial succeeds exactly when the supplied length equals
size, in which case the resulting map carries the supplied values verbatim;
on a mismatch it fails and no map is produced. -/
theorem claim6_from_initial {V H K : Type} [PerfectHash H K] (h : H) (init : List V) :
    (init.length = psize h →
      ∃ m : Map V H, Map.from_initial h init = some m ∧ m.hash = h ∧
        m.backing = init ∧ ∀ i : Nat, i < psize h → m.backing[i]? = init[i]?) ∧
    (init.length ≠ psize h → Map.from_initial h init = (none : Option (Map V H))) := by
  constructor
  · intro hlen
    exact ⟨{ hash := h, backing := init }, by simp [Map.from_initial, hlen], rfl, rfl,
      fun i _ => rfl⟩
  · intro hlen
    simp [Map.from_initial]
    omega

/-- Witness for claim C6 at the Pairs adapter with n = 2. -/
theorem claim6_witness :
    (∃ m : Map Nat Pairs, Map.from_initial (Pairs.mk 2) [1, 2, 3] = some m ∧
      m.hash = Pairs.mk 2 ∧ m.backing = [1, 2, 3] ∧
      ∀ i : Nat, i < psize (Pairs.mk 2) → m.backing[i]? = [1, 2, 3][i]?) ∧
    Map.from_initial (Pairs.mk 2) [1, 2] = (none : Option (Map Nat Pairs)) :=
  ⟨(claim6_from_initial (Pairs.mk 2) [1, 2, 3]).1 (by decide),
    (claim6_from_initial (Pairs.mk 2) [1, 2]).2 (by decide)⟩

/-- Stepping a domain iterator whose cursor is c yields the inverted indices
of the rest of the range and ends with the cursor reset to 0. -/
theorem keyIter_collect_range {H K : Type} [HashInverse H K] (h : H) :
    ∀ (d c : Nat), c + d = psize h →
      KeyIter.collect (d + 1) (KeyIter.mk h c) =
        ((List.range' c d).map (pinvert h), KeyIter.mk h 0) := by
  intro d
  induction d with
  | zero =>
    intro c hc
    have hc0 : c = psize h := by omega
    simp [KeyIter.collect, KeyIter.step, hc0]
  | succ d ih =>
    intro c hc
    have hne : c ≠ psize (K := K) h := by omega
    have hstep : KeyIter.step (K := K) (KeyIter.mk h c) =
        (some (pinvert h c), KeyIter.mk h (c + 1)) := by
      simp [KeyIter.step, hne]
    rw [KeyIter.collect, hstep]
    simp [ih (c + 1) (by omega), List.range'_succ]

/-- Claim C10: the domain iterator of an invertible adapter with positive
size is not permanently exhausted: stepping at cursor equal to size returns
None and resets the cursor to 0, a full pass from a fresh iterator yields
invert of 0 up to size - 1 and ends in the fresh state again, and the step
right after the None yields invert 0. -/
theorem claim10_key_iter_restarts {H K : Type} [HashInverse H K] (h : H)
    (hpos : 0 < psize h) :
    KeyIter.step (K := K) (KeyIter.mk h (psize h)) = (none, KeyIter.mk h 0) ∧
    KeyIter.collect (psize h + 1) (HashInverse.iter h) =
      ((List.range (psize h)).map (pinvert h), HashInverse.iter h) ∧
    (KeyIter.step (K := K) (HashInverse.iter h)).1 = some (pinvert h 0) := by
  refine ⟨?_, ?_, ?_⟩
  · simp [KeyIter.step]
  · have h1 := keyIter_collect_range (K := K) h (psize h) 0 (by omega)
    simpa [HashInverse.iter, List.range_eq_range'] using h1
  · simp [KeyIter.step, HashInverse.iter, hpos.ne]

/-- Witness for claim C10 at the Pairs adapter with n = 2. -/
theorem claim10_witness :
    0 < psize (Pairs.mk 2) ∧
    (KeyIter.step (K := Nat × Nat) (KeyIter.mk (Pairs.mk 2) (psize (Pairs.mk 2))) =
      (none, KeyIter.mk (Pairs.mk 2) 0) ∧
    KeyIter.collect (psize (Pairs.mk 2) + 1) (HashInverse.iter (Pairs.mk 2)) =
      ((List.range (psize (Pairs.mk 2))).map (pinvert (Pairs.mk 2)),
        HashInverse.iter (Pairs.mk 2)) ∧
    (KeyIter.step (K := Nat × Nat) (HashInverse.iter (Pairs.mk 2))).1 =
      some (pinvert (Pairs.mk 2) 0)) :=
  ⟨by decide, claim10_key_iter_restarts (Pairs.mk 2) (by decide)⟩

/-- Stepping an entry iterator whose remaining slice is l and position is p
yields the entries of l paired with inverted positions, and ends with an
empty remaining slice. -/
theorem mapIter_collect_entries {V H K : Type} [HashInverse H K] (h : H) :
    ∀ (l : List V) (p fuel : Nat), l.length < fuel →
      MapIter.collect fuel (MapIter.mk l h p) =
        (mapEntriesFrom h p l, MapIter.mk [] h (p + l.length)) := by
  intro l
  induction l with
  | nil =>
    intro p fuel hf
    match fuel, hf with
    | fuel + 1, _ => simp [MapIter.collect, MapIter.step, mapEntriesFrom]
  | cons v rest ih =>
    intro p fuel hf
    match fuel, hf with
    | fuel + 1, hf =>
      have hrec := ih (p + 1) fuel (by simp at hf; omega)
      simp [MapIter.collect, MapIter.step, mapEntriesFrom, hrec]
      omega

/-- The same full-pass trace for the mutable entry iterator. -/
theorem mapIterMut_collect_entries {V H K : Type} [HashInverse H K] (h : H) :
    ∀ (l : List V) (p fuel : Nat), l.length < fuel →
      MapIterMut.collect fuel (MapIterMut.mk l h p) =
        (mapEntriesFrom h p l, MapIterMut.mk [] h (p + l.length)) := by
  intro l
  induction l with
  | nil =>
    intro p fuel hf
    match fuel, hf with
    | fuel + 1, _ => simp [MapIterMut.collect, MapIterMut.step, mapEntriesFrom]
  | cons v rest ih =>
    intro p fuel hf
    match fuel, hf with
    | fuel + 1, hf =>
      have hrec := ih (p + 1) fuel (by simp at hf; omega)
      simp [MapIterMut.collect, MapIterMut.step, mapEntriesFrom, hrec]
      omega

/-- mapEntriesFrom has the length of the underlying slice. -/
theorem length_mapEntriesFrom {V H K : Type} [HashInverse H K] (h : H) :
    ∀ (l : List V) (p : Nat), (mapEntriesFrom h p l).length = l.length := by
  intro l
  induction l with
  | nil => intro p; rfl
  | cons v rest ih => intro p; simp [mapEntriesFrom, ih]

/-- Entry i of mapEntriesFrom pairs invert of the shifted position with the
corresponding slot value. -/
theorem getElem?_mapEntriesFrom {V H K : Type} [HashInverse H K] (h : H) :
    ∀ (l : List V) (p i : Nat),
      (mapEntriesFrom h p l)[i]? = (l[i]?).map (fun v => (pinvert h (p + i), v)) := by
  intro l
  induction l with
  | nil => intro p i; simp [mapEntriesFrom]
  | cons v rest ih =>
    intro p i
    cases i with
    | zero => simp [mapEntriesFrom]
    | succ i =>
      have harith : p + 1 + i = p + (i + 1) := by omega
      simp [mapEntriesFrom, ih (p + 1) i, harith]

/-- Claim C4: a full pass of Map.iter and of Map.iter_mut yields exactly
size pairs, the i-th being invert i paired with the slot at index i, in
ascending index order; afterwards every further step returns None and leaves
the iterator unchanged. -/
theorem claim4_map_iter_entries {V H K : Type} [HashInverse H K] (m : Map V H)
    (wf : m.backing.length = psize m.hash) :
    ∃ (entries : List (K × V)) (e : MapIter V H) (e2 : MapIterMut V H),
      MapIter.collect (psize m.hash + 1) m.iter = (entries, e) ∧
      MapIterMut.collect (psize m.hash + 1) m.iter_mut = (entries, e2) ∧
      entries.length = psize m.hash ∧
      (∀ i : Nat, entries[i]? = (m.backing[i]?).map (fun v => (pinvert m.hash i, v))) ∧
      MapIter.step e = (none, e) ∧
      MapIterMut.step e2 = (none, e2) := by
  refine ⟨mapEntriesFrom m.hash 0 m.backing,
    MapIter.mk [] m.hash m.backing.length,
    MapIterMut.mk [] m.hash m.backing.length, ?_, ?_, ?_, ?_, ?_, ?_⟩
  · have := mapIter_collect_entries m.hash m.backing 0 (psize m.hash + 1) (by omega)
    simpa [Map.iter] using this
  · have := mapIterMut_collect_entries m.hash m.backing 0 (psize m.hash + 1) (by omega)
    simpa [Map.iter_mut] using this
  · rw [length_mapEntriesFrom]; exact wf
  · intro i
    simpa using getElem?_mapEntriesFrom m.hash m.backing 0 i
  · rfl
  · rfl

/-- Witness for claim C4 at the Pairs adapter with n = 2. -/
theorem claim4_witness :
    (Map.mk (Pairs.mk 2) [1, 2, 3] : Map Nat Pairs).backing.length =
      psize (Map.mk (Pairs.mk 2) [1, 2, 3] : Map Nat Pairs).hash ∧
    (∃ (entries : List ((Nat × Nat) × Nat)) (e : MapIter Nat Pairs)
        (e2 : MapIterMut Nat Pairs),
      MapIter.collect (psize (Map.mk (Pairs.mk 2) [1, 2, 3] : Map Nat Pairs).hash + 1)
        (Map.mk (Pairs.mk 2) [1, 2, 3]).iter = (entries, e) ∧
      MapIterMut.collect (psize (Map.mk (Pairs.mk 2) [1, 2, 3] : Map Nat Pairs).hash + 1)
        (Map.mk (Pairs.mk 2) [1, 2, 3]).iter_mut = (entries, e2) ∧
      entries.length = psize (Map.mk (Pairs.mk 2) [1, 2, 3] : Map Nat Pairs).hash ∧
      (∀ i : Nat, entries[i]? =
        ((Map.mk (Pairs.mk 2) [1, 2, 3] : Map Nat Pairs).backing[i]?).map
          (fun v => (pinvert (Map.mk (Pairs.mk 2) [1, 2, 3] : Map Nat Pairs).hash i, v))) ∧
      MapIter.step e = (none, e) ∧
      MapIterMut.step e2 = (none, e2)) :=
  ⟨by decide, claim4_map_iter_entries (Map.mk (Pairs.mk 2) [1, 2, 3]) (by decide)⟩

/-- For an in-range index, reading with getElem? yields the getD value. -/
theorem getElem?_eq_some_getD {l : List Bool} {n : Nat} (h : n < l.length) :
    l[n]? = some (l.getD n false) := by
  simp [List.getElem?_eq_getElem h]

/-- The skip loop of SetIter::next never panics on a well-formed set and
lands on the first set bit at or after its start, or else on size. -/
theorem setIter_skip_spec {H : Type} (s : Set H) (sz : Nat)
    (wf : s.backing.length = sz) :
    ∀ d n, sz - n = d → n ≤ sz →
      ∃ m, SetIter.skip s sz n = some m ∧ n ≤ m ∧ m ≤ sz ∧
        (m < sz → s.backing.getD m false = true) ∧
        (∀ j, n ≤ j → j < m → s.backing.getD j false = false) := by
  intro d
  induction d with
  | zero =>
    intro n hd hn
    refine ⟨n, ?_, le_refl n, by omega, by omega, by omega⟩
    rw [SetIter.skip, dif_neg (by omega)]
  | succ d ih =>
    intro n hd hn
    have hlt : n < sz := by omega
    have hlt' : n < s.backing.length := by omega
    rw [SetIter.skip, dif_pos hlt, getElem?_eq_some_getD hlt']
    by_cases hb : s.backing.getD n false = true
    · rw [hb]
      exact ⟨n, rfl, le_refl n, by omega, fun _ => hb, by omega⟩
    · have hb' : s.backing.getD n false = false := by
        revert hb; cases s.backing.getD n false <;> simp
      rw [hb']
      obtain ⟨m, hskip, hnm, hmsz, hbit, hun⟩ := ih (n + 1) (by omega) (by omega)
      refine ⟨m, hskip, by omega, hmsz, hbit, ?_⟩
      intro j hj1 hj2
      rcases Nat.eq_or_lt_of_le hj1 with hj | hj
      · rw [← hj]; exact hb'
      · exact hun j (by omega) hj2

/-- A stretch of cleared bits contributes nothing to setKeysFrom. -/
theorem setKeysFrom_all_unset {H K : Type} [HashInverse H K] (s : Set H) (sz : Nat) :
    ∀ d n, sz - n = d → (∀ j, n ≤ j → j < sz → s.backing.getD j false = false) →
      setKeysFrom s sz n = [] := by
  intro d
  induction d with
  | zero =>
    intro n hd _
    rw [setKeysFrom, dif_neg (by omega)]
  | succ d ih =>
    intro n hd hun
    rw [setKeysFrom, dif_pos (by omega), hun n (le_refl n) (by omega)]
    simp [ih (n + 1) (by omega) (fun j hj1 hj2 => hun j (by omega) hj2)]

/-- setKeysFrom jumps over cleared bits to the first set bit. -/
theorem setKeysFrom_skip_to {H K : Type} [HashInverse H K] (s : Set H) (sz : Nat) :
    ∀ d n m, m - n = d → n ≤ m → m < sz →
      s.backing.getD m false = true →
      (∀ j, n ≤ j → j < m → s.backing.getD j false = false) →
      setKeysFrom s sz n = pinvert s.hash m :: setKeysFrom s sz (m + 1) := by
  intro d
  induction d with
  | zero =>
    intro n m hd hnm hm hbit _
    have hnm' : n = m := by omega
    subst hnm'
    rw [setKeysFrom, dif_pos (by omega), hbit]
    simp
  | succ d ih =>
    intro n m hd hnm hm hbit hun
    rw [setKeysFrom, dif_pos (by omega), hun n (le_refl n) (by omega)]
    simp [ih (n + 1) m (by omega) (by omega) hm hbit
      (fun j hj1 hj2 => hun j (by omega) hj2)]

/-- setKeysFrom yields at most one key per remaining index. -/
theorem setKeysFrom_length_le {H K : Type} [HashInverse H K] (s : Set H) (sz : Nat) :
    ∀ d n, sz - n = d → (setKeysFrom s sz n).length ≤ sz - n := by
  intro d
  induction d with
  | zero =>
    intro n hd
    rw [setKeysFrom, dif_neg (by omega)]
    simp
  | succ d ih =>
    intro n hd
    rw [setKeysFrom, dif_pos (by omega)]
    have hrec := ih (n + 1) (by omega)
    by_cases hb : s.backing.getD n false = true
    · rw [if_pos hb]
      simp only [List.length_append, List.length_cons, List.length_nil]
      omega
    · rw [if_neg hb]
      simp only [List.length_append, List.length_nil]
      omega

/-- setKeysFrom is the ascending filter of the set-bit indices, inverted. -/
theorem setKeysFrom_eq_filter {H K : Type} [HashInverse H K] (s : Set H) (sz : Nat) :
    ∀ d n, sz - n = d →
      setKeysFrom s sz n =
        ((List.range' n (sz - n)).filter (fun i => s.backing.getD i false)).map
          (pinvert s.hash) := by
  intro d
  induction d with
  | zero =>
    intro n hd
    rw [setKeysFrom, dif_neg (by omega), hd]
    simp
  | succ d ih =>
    intro n hd
    rw [setKeysFrom, dif_pos (by omega), hd, List.range'_succ, List.filter_cons]
    have hrec := ih (n + 1) (by omega)
    have hd' : sz - (n + 1) = d := by omega
    rw [hd'] at hrec
    by_cases hb : s.backing.getD n false = true
    · rw [if_pos hb, if_pos hb, hrec]
      simp
    · rw [if_neg hb, if_neg hb, hrec]
      simp

/-- One full pass of a set iterator: starting from a cursor whose effective
scan start is n, it yields setKeysFrom n and ends at cursor size. -/
theorem setIter_collect_pass {H K : Type} [HashInverse H K] (s : Set H)
    (wf : s.backing.length = psize (K := K) s.hash) :
    ∀ d n c fuel,
      psize (K := K) s.hash - n = d →
      n ≤ psize (K := K) s.hash →
      (if c = psize (K := K) s.hash then 0 else c + 1) = n →
      (setKeysFrom s (psize (K := K) s.hash) n).length < fuel →
      SetIter.collect fuel (SetIter.mk c s) =
        some (setKeysFrom s (psize (K := K) s.hash) n,
          SetIter.mk (psize (K := K) s.hash) s) := by
  intro d
  induction d using Nat.strong_induction_on with
  | _ d ih =>
    intro n c fuel hd hn hstart hfuel
    obtain ⟨f, rfl⟩ : ∃ f, fuel = f + 1 := ⟨fuel - 1, by omega⟩
    obtain ⟨m, hskip, hnm, hmsz, hbit, hun⟩ :=
      setIter_skip_spec s (psize (K := K) s.hash) wf (psize (K := K) s.hash - n) n rfl hn
    rw [SetIter.collect]
    simp only [SetIter.step, hstart, hskip]
    rcases Nat.eq_or_lt_of_le hmsz with hm | hm
    · have hempty : setKeysFrom s (psize (K := K) s.hash) n = [] :=
        setKeysFrom_all_unset s (psize (K := K) s.hash) (psize (K := K) s.hash - n) n rfl
          (fun j hj1 hj2 => hun j hj1 (by omega))
      subst hm
      rw [if_pos rfl, hempty]
    · have hcons := setKeysFrom_skip_to s (psize (K := K) s.hash) (m - n) n m rfl hnm hm
        (hbit hm) hun
      have hrec := ih (psize (K := K) s.hash - (m + 1)) (by omega) (m + 1) m f rfl
        (by omega) (by rw [if_neg (by omega)])
        (by rw [hcons] at hfuel; simp only [List.length_cons] at hfuel; omega)
      rw [if_neg (by omega)]
      simp only [hrec, hcons]

/-- Claim C5: a full pass of Set.iter yields exactly invert of each set-bit
index in ascending order and never a cleared index, and it ends in a state
equal to the fresh iterator, so further steps repeat the same sequence from
index 0 instead of staying exhausted. -/
theorem claim5_set_iter_filter_and_restart {H K : Type} [HashInverse H K] (s : Set H)
    (wf : s.backing.length = psize (K := K) s.hash) :
    ∃ (keys : List K) (e : SetIter H),
      SetIter.collect (psize (K := K) s.hash + 1) s.iter = some (keys, e) ∧
      e = s.iter ∧
      keys = ((List.range (psize (K := K) s.hash)).filter
        (fun i => s.backing.getD i false)).map (pinvert s.hash) := by
  have hpass := setIter_collect_pass (K := K) s wf (psize (K := K) s.hash) 0
    s.backing.length (psize (K := K) s.hash + 1) (by omega) (by omega)
    (by rw [if_pos wf])
    (by
      have := setKeysFrom_length_le (K := K) s (psize (K := K) s.hash)
        (psize (K := K) s.hash) 0 (by omega)
      omega)
  refine ⟨setKeysFrom s (psize (K := K) s.hash) 0,
    SetIter.mk (psize (K := K) s.hash) s, ?_, ?_, ?_⟩
  · rw [Set.iter]
    exact hpass
  · rw [Set.iter, wf]
  · have := setKeysFrom_eq_filter (K := K) s (psize (K := K) s.hash)
      (psize (K := K) s.hash) 0 (by omega)
    simpa [List.range_eq_range'] using this

/-- Witness for claim C5 at the Pairs adapter with n = 2 and bits 0 and 2
set. -/
theorem claim5_witness :
    (Set.mk (Pairs.mk 2) [true, false, true]).backing.length =
      psize (K := Nat × Nat) (Set.mk (Pairs.mk 2) [true, false, true]).hash ∧
    (∃ (keys : List (Nat × Nat)) (e : SetIter Pairs),
      SetIter.collect
          (psize (K := Nat × Nat) (Set.mk (Pairs.mk 2) [true, false, true]).hash + 1)
          (Set.mk (Pairs.mk 2) [true, false, true]).iter = some (keys, e) ∧
      e = (Set.mk (Pairs.mk 2) [true, false, true]).iter ∧
      keys = ((List.range
          (psize (K := Nat × Nat) (Set.mk (Pairs.mk 2) [true, false, true]).hash)).filter
        (fun i => (Set.mk (Pairs.mk 2) [true, false, true]).backing.getD i false)).map
          (pinvert (Set.mk (Pairs.mk 2) [true, false, true]).hash)) :=
  ⟨by decide,
    claim5_set_iter_filter_and_restart (Set.mk (Pairs.mk 2) [true, false, true])
      (by decide)⟩

/-- Applying one MapOp preserves the backing length. -/
theorem applyOp_length {V H K : Type} [PerfectHash H K] (m : Map V H)
    (op : MapOp K V) (m2 : Map V H) (hop : m.applyOp op = some m2) :
    m2.backing.length = m.backing.length := by
  cases op with
  | ins k v =>
    rw [Map.applyOp, Map.insert] at hop
    split at hop
    · cases hop; simp
    · cases hop
  | swp k v =>
    rw [Map.applyOp, Map.swap] at hop
    split at hop
    · simp only [Option.map_some'] at hop
      cases hop; simp
    · simp at hop
  | wr k v =>
    rw [Map.applyOp, Map.write_at, Map.get_mut] at hop
    rcases hsc : m.backing[phash m.hash k]? with _ | old <;> rw [hsc] at hop
    · simp at hop
    · simp only [Option.map_some'] at hop
      cases hop; simp
  | mapv f =>
    rw [Map.applyOp, Map.map_values] at hop
    cases hop; simp

/-- Applying any sequence of MapOps preserves the backing length. -/
theorem applyOps_length {V H K : Type} [PerfectHash H K] :
    ∀ (ops : List (MapOp K V)) (m m2 : Map V H), m.applyOps ops = some m2 →
      m2.backing.length = m.backing.length := by
  intro ops
  induction ops with
  | nil =>
    intro m m2 hop
    rw [Map.applyOps] at hop
    cases hop; rfl
  | cons op rest ih =>
    intro m m2 hop
    rw [Map.applyOps] at hop
    rcases hmid : m.applyOp op with _ | m1 <;> rw [hmid] at hop
    · cases hop
    · simp only [Option.some_bind] at hop
      have h1 := applyOp_length m op m1 hmid
      have h2 := ih m1 m2 hop
      omega

/-- Claim C7: len always reports the size fixed at construction: the three
constructors build maps of backing length size, no sequence of mutating
operations changes the length, and is_empty holds exactly when size is 0. -/
theorem claim7_len_fixed {V H K : Type} [Inhabited V] [PerfectHash H K]
    (h : H) (v0 : V) (init : List V) :
    (Map.new (V := V) h).len = psize h ∧
    (Map.from_element h v0).len = psize h ∧
    (∀ m : Map V H, Map.from_initial h init = some m → m.len = psize h) ∧
    (∀ (m : Map V H) (ops : List (MapOp K V)) (m2 : Map V H),
      m.len = psize h → m.applyOps ops = some m2 →
      m2.len = psize h ∧ (m2.is_empty = true ↔ psize h = 0)) := by
  refine ⟨?_, ?_, ?_, ?_⟩
  · simp [Map.new, Map.len]
  · simp [Map.from_element, Map.len]
  · intro m hm
    rw [Map.from_initial] at hm
    split at hm
    · cases hm; simp only [Map.len]; omega
    · cases hm
  · intro m ops m2 hlen hops
    have hpres := applyOps_length ops m m2 hops
    rw [Map.len] at hlen
    refine ⟨?_, ?_⟩
    · rw [Map.len]; omega
    · rw [Map.is_empty, List.isEmpty_iff_length_eq_zero]; omega

/-- Witness for claim C7 at the Pairs adapter with n = 2 and a four-step
operation sequence touching every operation kind. -/
theorem claim7_witness :
    (Map.new (Pairs.mk 2) : Map Nat Pairs).len = psize (Pairs.mk 2) ∧
    (Map.from_element (Pairs.mk 2) 4 : Map Nat Pairs).len = psize (Pairs.mk 2) ∧
    (Map.mk (Pairs.mk 2) [1, 2, 3] : Map Nat Pairs).len = psize (Pairs.mk 2) ∧
    (Map.mk (Pairs.mk 2) [10, 6, 8] : Map Nat Pairs).len = psize (Pairs.mk 2) ∧
    ((Map.mk (Pairs.mk 2) [10, 6, 8] : Map Nat Pairs).is_empty = true ↔
      psize (Pairs.mk 2) = 0) := by
  have hmain := claim7_len_fixed (V := Nat) (K := Nat × Nat) (Pairs.mk 2) 4 [1, 2, 3]
  have hseq := hmain.2.2.2 (Map.mk (Pairs.mk 2) [1, 2, 3])
    [MapOp.ins ((0, 1) : Nat × Nat) 5, MapOp.swp ((1, 1) : Nat × Nat) 7,
      MapOp.wr ((0, 0) : Nat × Nat) 9, MapOp.mapv (fun x => x + 1)]
    (Map.mk (Pairs.mk 2) [10, 6, 8]) (by decide) (by rfl)
  exact ⟨hmain.1, hmain.2.1, hmain.2.2.1 (Map.mk (Pairs.mk 2) [1, 2, 3]) (by rfl),
    hseq.1, hseq.2⟩

/-- Claim C9: swap stores the caller value in the slot at hash k, hands the
old slot value to the caller, and leaves every other slot unchanged. -/
theorem claim9_swap_exchanges {V H K : Type} [PerfectHash H K]
    (m : Map V H) (k : K) (v : V)
    (wf : m.backing.length = psize m.hash) (hk : phash m.hash k < psize m.hash) :
    ∃ (m2 : Map V H) (w : V), m.swap k v = some (m2, w) ∧
      m.get k = some w ∧ m2.get k = some v ∧
      ∀ k2 : K, phash m.hash k2 ≠ phash m.hash k → m2.get k2 = m.get k2 := by
  have hk' : phash m.hash k < m.backing.length := by omega
  refine ⟨{ m with backing := m.backing.set (phash m.hash k) v },
    m.backing[phash m.hash k], ?_, ?_, ?_, ?_⟩
  · simp [Map.swap, List.getElem?_eq_getElem hk']
  · simp [Map.get, List.getElem?_eq_getElem hk']
  · simp [Map.get, List.getElem?_set_self hk']
  · intro k2 hne
    simp [Map.get, List.getElem?_set_ne (Ne.symm hne)]

/-- Witness for claim C9, echoing the swap scenario of the spec at the Pairs
adapter with n = 2: the slot at key (1, 0) holds the string lovely, the
caller holds the string World, and swap exchanges them. -/
theorem claim9_witness :
    ((Map.mk (Pairs.mk 2) ["Hello", "lovely", "rest"] : Map String Pairs).backing.length =
        psize (Map.mk (Pairs.mk 2) ["Hello", "lovely", "rest"] : Map String Pairs).hash ∧
      phash (Map.mk (Pairs.mk 2) ["Hello", "lovely", "rest"] : Map String Pairs).hash
          ((1, 0) : Nat × Nat) <
        psize (Map.mk (Pairs.mk 2) ["Hello", "lovely", "rest"] : Map String Pairs).hash) ∧
    (∃ (m2 : Map String Pairs) (w : String),
      (Map.mk (Pairs.mk 2) ["Hello", "lovely", "rest"]).swap ((1, 0) : Nat × Nat) "World!" =
        some (m2, w) ∧
      (Map.mk (Pairs.mk 2) ["Hello", "lovely", "rest"]).get ((1, 0) : Nat × Nat) = some w ∧
      m2.get ((1, 0) : Nat × Nat) = some "World!" ∧
      ∀ k2 : Nat × Nat,
        phash (Map.mk (Pairs.mk 2) ["Hello", "lovely", "rest"] : Map String Pairs).hash k2 ≠
          phash (Map.mk (Pairs.mk 2) ["Hello", "lovely", "rest"] : Map String Pairs).hash
            ((1, 0) : Nat × Nat) →
        m2.get k2 = (Map.mk (Pairs.mk 2) ["Hello", "lovely", "rest"]).get k2) :=
  ⟨⟨by decide, by decide⟩,
    claim9_swap_exchanges (Map.mk (Pairs.mk 2) ["Hello", "lovely", "rest"])
      ((1, 0) : Nat × Nat) "World!" (by decide) (by decide)⟩

/-- The forward hash of Pairs, written out. -/
theorem pairs_hash_eq (p : Pairs) (k : Nat × Nat) :
    phash p k = (Pairs.sort k).1 + Pairs.size_when (Pairs.sort k).2 := rfl

/-- Pairs.sort orders a pair into its minimum and maximum. -/
theorem pairs_sort_eq_min_max (u v : Nat) :
    Pairs.sort (u, v) = (min u v, max u v) := by
  rw [Pairs.sort]
  rcases Nat.lt_or_ge v u with h | h
  · rw [if_pos h, min_eq_right (Nat.le_of_lt h), max_eq_left (Nat.le_of_lt h)]
  · rw [if_neg (by omega), min_eq_left h, max_eq_right h]

/-- The triangular recurrence of size_when. -/
theorem size_when_succ (n : Nat) :
    Pairs.size_when (n + 1) = Pairs.size_when n + (n + 1) := by
  rw [Pairs.size_when, Pairs.size_when]
  have h2 : (n + 1 + 1) * (n + 1) = (n + 1) * n + 2 * (n + 1) := by ring
  rw [h2, Nat.add_mul_div_left _ _ (by omega : 0 < 2)]

/-- size_when is monotone. -/
theorem size_when_mono : ∀ {a b : Nat}, a ≤ b →
    Pairs.size_when a ≤ Pairs.size_when b := by
  intro a b
  induction b with
  | zero =>
    intro hab
    have h0 : a = 0 := by omega
    rw [h0]
  | succ b ih =>
    intro hab
    rcases Nat.eq_or_lt_of_le hab with h | h
    · rw [h]
    · have := ih (by omega)
      rw [size_when_succ]
      omega

/-- Every index below a triangular number decomposes as a + size_when b with
a at most b. -/
theorem size_when_decompose :
    ∀ n index, index < Pairs.size_when n →
      ∃ a b, a ≤ b ∧ b < n ∧ index = a + Pairs.size_when b := by
  intro n
  induction n with
  | zero =>
    intro index h
    simp [Pairs.size_when] at h
  | succ n ih =>
    intro index h
    by_cases hlt : index < Pairs.size_when n
    · obtain ⟨a, b, h1, h2, h3⟩ := ih index hlt
      exact ⟨a, b, h1, by omega, h3⟩
    · rw [size_when_succ] at h
      exact ⟨index - Pairs.size_when n, n, by omega, by omega, by omega⟩

/-- The invert loop of Pairs, run with its remaining iteration count in
step, returns the unique ordered decomposition of its index, scanning use_b
downward from n - 1. -/
theorem invertLoop_finds (p : Pairs) :
    ∀ r sub a b, a ≤ b → b < p.n →
      b ≤ p.n - 1 - sub →
      a + Pairs.size_when b < Pairs.size_when (p.n - sub) →
      p.n - sub = r →
      Pairs.invertLoop p (a + Pairs.size_when b) sub r = some (a, b) := by
  intro r
  induction r with
  | zero =>
    intro sub a b hab hbn hble hlt hr
    rw [hr] at hlt
    simp [Pairs.size_when] at hlt
  | succ rr ih =>
    intro sub a b hab hbn hble hlt hr
    rw [Pairs.invertLoop]
    by_cases hcase : p.n - 1 - sub = b
    · rw [hcase, if_pos (Nat.le_add_left (Pairs.size_when b) a), Nat.add_sub_cancel,
        if_pos hab]
    · have hblt : b < p.n - 1 - sub := by omega
      have h1 : a + Pairs.size_when b < Pairs.size_when (b + 1) := by
        rw [size_when_succ]
        omega
      have h2 : Pairs.size_when (b + 1) ≤ Pairs.size_when (p.n - 1 - sub) :=
        size_when_mono (by omega)
      rw [if_neg (by omega)]
      have heq : p.n - (sub + 1) = p.n - 1 - sub := by omega
      exact ih (sub + 1) a b hab hbn (by omega) (by rw [heq]; omega) (by omega)

/-- Claim C8: for the Pairs adapter, the hash of invert of any index below
size is that index again, invert of the hash of any in-bound pair is the
sorted canonical representative (the minimum paired with the maximum), and
in particular invert of hash of (7, 3) with bound 10 is (3, 7). -/
theorem claim8_pairs_roundtrip (p : Pairs) :
    (∀ i, i < psize p →
      ∃ k, Pairs.invert p i = some k ∧ phash p k = i ∧ pinvert p i = k) ∧
    (∀ u v, u < p.n → v < p.n →
      Pairs.invert p (phash p (u, v)) = some (Pairs.sort (u, v)) ∧
      Pairs.sort (u, v) = (min u v, max u v)) ∧
    Pairs.invert (Pairs.mk 10) (phash (Pairs.mk 10) (7, 3)) = some (3, 7) := by
  refine ⟨?_, ?_, by decide⟩
  · intro i hi
    have hi' : i < Pairs.size_when p.n := hi
    obtain ⟨a, b, hab, hbn, hio⟩ := size_when_decompose p.n i hi'
    have hfind : Pairs.invert p i = some (a, b) := by
      rw [Pairs.invert, if_pos hi, hio]
      exact invertLoop_finds p p.n 0 a b hab hbn (by omega)
        (by rw [Nat.sub_zero]; omega) (by omega)
    refine ⟨(a, b), hfind, ?_, ?_⟩
    · rw [pairs_hash_eq]
      have hs : Pairs.sort (a, b) = (a, b) := by
        rw [Pairs.sort, if_neg (by omega : ¬ a > b)]
      rw [hs]
      show a + Pairs.size_when b = i
      omega
    · show (Pairs.invert p i).getD (0, 0) = (a, b)
      rw [hfind]
      rfl
  · intro u v hu hv
    have hsort := pairs_sort_eq_min_max u v
    refine ⟨?_, hsort⟩
    have hab : min u v ≤ max u v := min_le_max
    have hbn : max u v < p.n := max_lt hu hv
    have hhash : phash p (u, v) = min u v + Pairs.size_when (max u v) := by
      rw [pairs_hash_eq, hsort]
    have h1 : min u v + Pairs.size_when (max u v) <
        Pairs.size_when (max u v + 1) := by
      rw [size_when_succ]
      omega
    have h2 : Pairs.size_when (max u v + 1) ≤ Pairs.size_when p.n :=
      size_when_mono (by omega)
    have hidx : phash p (u, v) < psize p := by
      rw [hhash]
      show _ < Pairs.size_when p.n
      omega
    rw [Pairs.invert, if_pos hidx, hhash, hsort]
    exact invertLoop_finds p p.n 0 (min u v) (max u v) hab hbn (by omega)
      (by rw [Nat.sub_zero]; omega) (by omega)

/-- Witness for claim C8 at the Pairs adapter with n = 4, index 5, and the
pair (3, 1). -/
theorem claim8_witness :
    (5 < psize (Pairs.mk 4) ∧
      ∃ k, Pairs.invert (Pairs.mk 4) 5 = some k ∧ phash (Pairs.mk 4) k = 5 ∧
        pinvert (Pairs.mk 4) 5 = k) ∧
    (3 < (Pairs.mk 4).n ∧ 1 < (Pairs.mk 4).n ∧
      Pairs.invert (Pairs.mk 4) (phash (Pairs.mk 4) (3, 1)) = some (Pairs.sort (3, 1)) ∧
      Pairs.sort (3, 1) = (min 3 1, max 3 1)) ∧
    Pairs.invert (Pairs.mk 10) (phash (Pairs.mk 10) (7, 3)) = some (3, 7) :=
  ⟨⟨by decide, (claim8_pairs_roundtrip (Pairs.mk 4)).1 5 (by decide)⟩,
    ⟨by decide, by decide,
      ((claim8_pairs_roundtrip (Pairs.mk 4)).2.1 3 1 (by decide) (by decide)).1,
      ((claim8_pairs_roundtrip (Pairs.mk 4)).2.1 3 1 (by decide) (by decide)).2⟩,
    (claim8_pairs_roundtrip (Pairs.mk 4)).2.2⟩

end Phf
